import Mathlib

/-!
Verification of the pianoroll utilities module (src/pianoroll_utils.py).

A pianoroll is embedded as a `List (List ℚ)`: a list of rows of a 2-D
numeric matrix.  Machine floats are idealised as exact rationals, numpy
integer truncation (`astype(int)`, `int(...)`) as rational-to-integer
truncation toward zero, and functions that can raise a Python exception
(failed `assert`, `IndexError`, negative dimension in `np.zeros`) return
`Option`, with `none` standing for the raised error.

Randomness (`np.random.randint(0, 2, M, dtype=bool)`) is passed in
explicitly as a `List Bool` parameter, so every theorem quantifies over
all realizations of the random draw.
-/

namespace PianorollUtils

/-- Truncation of a rational toward zero, the behaviour of Python's
`int(...)` and numpy's `astype(int)` on a (finite) float value. -/
def intTrunc (q : ℚ) : ℤ := q.num.tdiv (q.den : ℤ)

/-- Effective start/stop index of the Python slice notation `l[i:]` or
`l[:i]` on a sequence of length `n`: negative indices count from the end,
and out-of-range indices are clamped, never reported as errors. -/
def pyIdx (i : ℤ) (n : ℕ) : ℕ :=
  if i < 0 then ((n : ℤ) + i).toNat else min i.toNat n

/-- Embedding of `crop_pianoroll` (src/pianoroll_utils.py lines 17-26).
The entry `assert pianoroll.shape[1] == 128` and the exit
`assert output.shape[1] == max_pitch - min_pitch + 1` are modelled as
guards returning `none`; the slice `pianoroll[:, min_pitch:max_pitch+1]`
is `drop`/`take` on every row. -/
def crop_pianoroll (pianoroll : List (List ℚ)) (min_pitch max_pitch : ℕ) :
    Option (List (List ℚ)) :=
  if pianoroll.all (fun r => r.length == 128) then
    let output := pianoroll.map (fun r => (r.drop min_pitch).take (max_pitch + 1 - min_pitch))
    if output.all (fun r => (r.length : ℤ) == (max_pitch : ℤ) - (min_pitch : ℤ) + 1) then
      some output
    else none
  else none

/-- Embedding of `pad_pianoroll` (src/pianoroll_utils.py lines 28-39).
The function asserts `pianoroll.shape[1] == max_pitch - min_pitch + 1`,
then builds `np.zeros((ticks, min_pitch-1))` and
`np.zeros((ticks, 128-max_pitch))` and `np.hstack`s the three blocks.
With Python integers, `min_pitch - 1` is `-1` when `min_pitch = 0` and
`128 - max_pitch` is negative when `max_pitch > 128`; `np.zeros` raises
`ValueError` on a negative dimension, modelled by the `none` branch.
The final `assert output.shape[1] == 128` is the last guard. -/
def pad_pianoroll (pianoroll : List (List ℚ)) (min_pitch max_pitch : ℕ) :
    Option (List (List ℚ)) :=
  if pianoroll.all (fun r => (r.length : ℤ) == (max_pitch : ℤ) - (min_pitch : ℤ) + 1) then
    if 1 ≤ min_pitch ∧ max_pitch ≤ 128 then
      let output := pianoroll.map
        (fun r => List.replicate (min_pitch - 1) (0 : ℚ) ++ r ++ List.replicate (128 - max_pitch) (0 : ℚ))
      if output.all (fun r => r.length == 128) then some output else none
    else none
  else none

/-- Embedding of `chop_to_unit_multiple` (src/pianoroll_utils.py lines
193-215): `M = int(num_ticks / ticks_per_unit)` is floor division for the
non-negative operands that arise from an array shape, and the truncation
`pianoroll[:M*ticks_per_unit, :]` is `take`.  The two debug assertions of
the source always hold and are not separate failure paths.  (In Python a
`ticks_per_unit` of zero raises `ZeroDivisionError`; theorems about this
function therefore assume `0 < ticks_per_unit`.) -/
def chop_to_unit_multiple (pianoroll : List (List ℚ)) (ticks_per_unit : ℕ) :
    ℕ × List (List ℚ) :=
  let num_ticks := pianoroll.length
  let M := num_ticks / ticks_per_unit
  (M, pianoroll.take (M * ticks_per_unit))

/-- Embedding of `shuffle_left_right` (src/pianoroll_utils.py lines
218-238).  The random vector `bool_array = np.random.randint(0, 2,
left_units.shape[0], dtype=bool)` is the explicit parameter `bools`.
`input_units` starts as a copy of `left_units` and the fancy assignment
`input_units[bool_array, ...] = right_units[bool_array, ...]` replaces
exactly the entries at the `true` positions, and symmetrically for
`comp_units`; per index this selects between the two sides. -/
def shuffle_left_right (bools : List Bool) (left_units right_units : List (List (List ℚ))) :
    List (List (List ℚ)) × List (List (List ℚ)) :=
  ((List.range left_units.length).map (fun i =>
      if bools.getD i false then right_units.getD i [] else left_units.getD i []),
   (List.range right_units.length).map (fun i =>
      if bools.getD i false then left_units.getD i [] else right_units.getD i []))

/-- Row transform for `left_comp[:, partition_note:] = 0` in
`create_units` (line 258): keep the first `s` entries, zero the rest.
The slice start `s` is the already-clamped index. -/
def zeroFrom (s : ℕ) (row : List ℚ) : List ℚ :=
  row.take s ++ List.replicate (row.length - s) (0 : ℚ)

/-- Row transform for `right_comp[:, :partition_note] = 0` in
`create_units` (line 260): zero the first `s` entries, keep the rest. -/
def zeroUpto (s : ℕ) (row : List ℚ) : List ℚ :=
  List.replicate (min s row.length) (0 : ℚ) ++ row.drop s

/-- Embedding of `left_comp.reshape(M, ticks_per_unit, num_pitches)`
(lines 263-264): group the `M * ticks_per_unit` rows of a matrix into
`M` consecutive blocks of `ticks_per_unit` rows. -/
def reshapeUnits (roll : List (List ℚ)) (M ticks_per_unit : ℕ) : List (List (List ℚ)) :=
  (List.range M).map (fun i => (roll.drop (i * ticks_per_unit)).take ticks_per_unit)

/-- Mean of all entries of one unit, the value `np.mean(input_units[i])`
computed over axes (1,2) in line 271: total of all entries divided by
the number of entries. -/
def unitMean (u : List (List ℚ)) : ℚ :=
  (u.map List.sum).sum / ((u.map List.length).sum : ℚ)

/-- Boolean-mask selection `a[filter_array, ...]` of numpy (lines
273-274): keep the entries of `l` at the positions where `mask` holds. -/
def maskFilter {α : Type} (mask : List Bool) (l : List α) : List α :=
  ((mask.zip l).filter (fun p => p.1)).map (fun p => p.2)

/-- The left-register units of `create_units`: truncate (line 249), zero
the columns from `partition_note - min_pitch` on (lines 256-258), and
reshape into units (line 263).  The slice index follows Python semantics
(`pyIdx`), so an out-of-range partition is clamped, not rejected. -/
def leftUnits (pianoroll : List (List ℚ)) (num_pitches ticks_per_unit : ℕ)
    (partition_note min_pitch : ℤ) : List (List (List ℚ)) :=
  let chopped := chop_to_unit_multiple pianoroll ticks_per_unit
  let s := pyIdx (partition_note - min_pitch) num_pitches
  reshapeUnits (chopped.2.map (zeroFrom s)) chopped.1 ticks_per_unit

/-- The right-register units of `create_units`: truncate, zero the
columns below `partition_note - min_pitch` (lines 259-260), and reshape
into units (line 264). -/
def rightUnits (pianoroll : List (List ℚ)) (num_pitches ticks_per_unit : ℕ)
    (partition_note min_pitch : ℤ) : List (List (List ℚ)) :=
  let chopped := chop_to_unit_multiple pianoroll ticks_per_unit
  let s := pyIdx (partition_note - min_pitch) num_pitches
  reshapeUnits (chopped.2.map (zeroUpto s)) chopped.1 ticks_per_unit

/-- The pair produced by line 268 of `create_units`:
`shuffle_left_right(left_units, right_units)`. -/
def shuffledUnits (bools : List Bool) (pianoroll : List (List ℚ))
    (num_pitches ticks_per_unit : ℕ) (partition_note min_pitch : ℤ) :
    List (List (List ℚ)) × List (List (List ℚ)) :=
  shuffle_left_right bools
    (leftUnits pianoroll num_pitches ticks_per_unit partition_note min_pitch)
    (rightUnits pianoroll num_pitches ticks_per_unit partition_note min_pitch)

/-- The filter mask of lines 271-272: `np.mean(input_units, axis=(1,2))
> filter_threshold`, one boolean per unit.  The `.squeeze()` of line 271
is the identity on the length-M mean vector except at M = 1, where it
collapses the vector to a 0-d array; that failure path is modelled in
`create_units` below. -/
def keepMask (bools : List Bool) (pianoroll : List (List ℚ))
    (num_pitches ticks_per_unit : ℕ) (partition_note min_pitch : ℤ)
    (filter_threshold : ℚ) : List Bool :=
  (shuffledUnits bools pianoroll num_pitches ticks_per_unit partition_note min_pitch).1.map
    (fun u => decide (filter_threshold < unitMean u))

/-- Embedding of `create_units` (src/pianoroll_utils.py lines 241-281).
The entry `assert pianoroll.shape[1] == num_pitches` is the first guard;
the body chains truncation, the left/right register split, the reshape
into units, the random exchange and the near-silence filter.  The
`np.zeros` initialisations of lines 252-253 are overwritten before use.
When the chopped unit count `M` is exactly 1, the `.squeeze()` of line
271 collapses the length-1 mean vector to a 0-d array, the comparison of
line 272 gives a 0-d boolean mask, the 0-d boolean indexing of lines
273-274 inserts a new leading axis (shapes `(1,1,tpu,np)` or
`(0,1,tpu,np)`), and the 4-tuple shape never equals the 3-tuple of the
debug assertions on lines 278-279, so the call raises `AssertionError`;
this is the second `none` guard.  For every other `M` the trailing
assertions restate the construction and add no failure path.  The source
performs no range check on `partition_note`: the two slice assignments
clamp out-of-range indices (Python slice semantics, `pyIdx`). -/
def create_units (pianoroll : List (List ℚ)) (num_pitches ticks_per_unit : ℕ)
    (partition_note min_pitch : ℤ) (filter_threshold : ℚ) (bools : List Bool) :
    Option (List (List (List ℚ)) × List (List (List ℚ))) :=
  if pianoroll.all (fun r => r.length == num_pitches) then
    let su := shuffledUnits bools pianoroll num_pitches ticks_per_unit partition_note min_pitch
    let mask := keepMask bools pianoroll num_pitches ticks_per_unit partition_note min_pitch
      filter_threshold
    if (chop_to_unit_multiple pianoroll ticks_per_unit).1 = 1 then none
    else some (maskFilter mask su.1, maskFilter mask su.2)
  else none

/-- Elementwise sum of two units (matrices), used to state that the
left/right register split is a complementary zeroing. -/
def matAdd (x y : List (List ℚ)) : List (List ℚ) :=
  List.zipWith (List.zipWith (fun a b => a + b)) x y

/-- One mido message as built by `pianoroll_2_events`: both the note-on
and the note-off are `Message('note_on', ...)` records, a note-off being
the conventional velocity-0 note-on (lines 159 and 162). -/
structure MidiMsg where
  note : ℕ
  velocity : ℤ
deriving DecidableEq

/-- Transpose of a rectangular matrix whose rows have length `ncols`,
the `pianoroll = pianoroll.T` of line 144. -/
def transposeRC (m : List (List ℚ)) (ncols : ℕ) : List (List ℚ) :=
  (List.range ncols).map (fun t => m.map (fun r => r.getD t 0))

/-- Indicator used to form the first difference of the binarized roll. -/
def boolToInt (b : Bool) : ℤ := if b then 1 else 0

/-- Column `j` of `diff` (lines 148-150): binarize column `j` of the
tick-by-pitch integer matrix, pad one `false` tick at each end, and take
the first difference along time.  The result has `num_ticks + 1`
entries. -/
def diffColumn (clipped : List (List ℤ)) (j : ℕ) : List ℤ :=
  let bcol : List Bool := clipped.map (fun r => decide (r.getD j 0 ≠ 0))
  let padded : List Bool := false :: (bcol ++ [false])
  (List.range (padded.length - 1)).map
    (fun t => boolToInt (padded.getD (t + 1) false) - boolToInt (padded.getD t false))

/-- The `np.nonzero(diff[:, pitch] > 0)[0]` of line 154: indices of the
strictly positive entries, in increasing order. -/
def positiveIndices (d : List ℤ) : List ℕ :=
  (List.range d.length).filter (fun t => decide (0 < d.getD t 0))

/-- The `np.nonzero(diff[:, pitch] < 0)[0]` of line 155. -/
def negativeIndices (d : List ℤ) : List ℕ :=
  (List.range d.length).filter (fun t => decide (d.getD t 0 < 0))

/-- The `events[i].append(msg)` of lines 160 and 163. -/
def appendAt (events : List (List MidiMsg)) (i : ℕ) (msg : MidiMsg) :
    List (List MidiMsg) :=
  events.set i (events.getD i [] ++ [msg])

/-- The `np.mean(clipped[note_on:note_offs[idx], p])` of line 157,
truncated to an integer as by `int(velocity)` on line 159: mean of
column `p` of the integer matrix over ticks `[a, b)`. -/
def meanVelocity (clipped : List (List ℤ)) (p a b : ℕ) : ℤ :=
  let col := clipped.map (fun r => r.getD p 0)
  let slice := (col.drop a).take (b - a)
  intTrunc ((slice.sum : ℚ) / (slice.length : ℚ))

/-- One iteration of the `for p in range(num_pitches)` loop of lines
152-163.  Note the source's `pitch = min_pitch + p` (line 153) is used
both as the emitted note number and as the column index into `diff`
(lines 154-155), while the velocity of line 157 reads column `p`; the
guard `pitch < num_pitches` models the `IndexError` that numpy raises
when `diff[:, pitch]` is out of bounds.  The inner index
`note_offs[idx]` is likewise guarded. -/
def processPitch (clipped : List (List ℤ)) (num_pitches num_ticks min_pitch p : ℕ)
    (events : List (List MidiMsg)) : Option (List (List MidiMsg)) :=
  let pitch := min_pitch + p
  if pitch < num_pitches then
    let d := diffColumn clipped pitch
    let note_ons := positiveIndices d
    let note_offs := negativeIndices d
    (List.range note_ons.length).foldl
      (fun oev idx =>
        oev.bind (fun ev =>
          if idx < note_offs.length then
            let note_on := note_ons.getD idx 0
            let note_off := note_offs.getD idx 0
            let vel := meanVelocity clipped p note_on note_off
            let ev1 := appendAt ev note_on (MidiMsg.mk pitch vel)
            some (if note_off < num_ticks then appendAt ev1 note_off (MidiMsg.mk pitch 0) else ev1)
          else none))
      (some events)
  else none

/-- Embedding of `pianoroll_2_events` (src/pianoroll_utils.py lines
133-164).  The input has shape `(num_pitches, num_ticks)` and the entry
`assert pianoroll.shape[0] == max_pitch - min_pitch + 1` is the guard;
the body transposes, truncates to integers (`astype(int)`), and runs the
per-pitch edge detection, filling one event bucket per tick. -/
def pianoroll_2_events (pianoroll : List (List ℚ)) (min_pitch max_pitch : ℕ) :
    Option (List (List MidiMsg)) :=
  if (pianoroll.length : ℤ) = (max_pitch : ℤ) - (min_pitch : ℤ) + 1 then
    let num_pitches := pianoroll.length
    let num_ticks := (pianoroll.headD []).length
    let clipped := (transposeRC pianoroll num_ticks).map (fun r => r.map intTrunc)
    let events0 : List (List MidiMsg) := List.replicate num_ticks []
    (List.range num_pitches).foldl
      (fun oev p => oev.bind (processPitch clipped num_pitches num_ticks min_pitch p))
      (some events0)
  else none

/-- A one-pitch pianoroll row of `n` ticks holding a single contiguous
run of the constant value `v` on ticks `[a, b)` and silence elsewhere. -/
def singleRunRow (n a b : ℕ) (v : ℤ) : List ℚ :=
  (List.range n).map (fun t => if a ≤ t ∧ t < b then (v : ℚ) else 0)

/-- The clipped tick-by-pitch integer matrix that `pianoroll_2_events`
computes (lines 144-147) for the single-run pianoroll: transpose of the
one-row matrix, truncated to integers. -/
def clippedRun (n a b : ℕ) (v : ℤ) : List (List ℤ) :=
  (transposeRC [singleRunRow n a b v] n).map (fun r => r.map intTrunc)

/-! General helper lemmas about list indexing. -/

theorem getD_range_map {α : Type} (f : ℕ → α) (m t : ℕ) (d : α) :
    ((List.range m).map f).getD t d = if t < m then f t else d := by
  rw [List.getD_eq_getElem?_getD, List.getElem?_map]
  by_cases h : t < m
  · rw [List.getElem?_range h]
    simp [h]
  · have hnone : (List.range m)[t]? = none := by
      rw [List.getElem?_eq_none_iff]
      simpa using Nat.le_of_not_lt h
    rw [hnone]
    simp [h]

theorem getD_take {α : Type} (l : List α) (k i : ℕ) (d : α) (h : i < k) :
    (l.take k).getD i d = l.getD i d := by
  rw [List.getD_eq_getElem?_getD, List.getD_eq_getElem?_getD, List.getElem?_take]
  rw [if_pos h]

theorem getD_append_left {α : Type} (l1 l2 : List α) (i : ℕ) (d : α) (h : i < l1.length) :
    (l1 ++ l2).getD i d = l1.getD i d := by
  rw [List.getD_eq_getElem?_getD, List.getD_eq_getElem?_getD, List.getElem?_append]
  rw [if_pos h]

theorem getD_append_right {α : Type} (l1 l2 : List α) (i : ℕ) (d : α) (h : l1.length ≤ i) :
    (l1 ++ l2).getD i d = l2.getD (i - l1.length) d := by
  rw [List.getD_eq_getElem?_getD, List.getD_eq_getElem?_getD,
    List.getElem?_append_right h]

theorem getD_replicate {α : Type} (n i : ℕ) (x d : α) :
    (List.replicate n x).getD i d = if i < n then x else d := by
  rw [List.getD_eq_getElem?_getD, List.getElem?_replicate]
  by_cases h : i < n
  · rw [if_pos h, if_pos h]
    rfl
  · rw [if_neg h, if_neg h]
    rfl

theorem getD_set_self {α : Type} (l : List α) (i : ℕ) (x d : α) (h : i < l.length) :
    (l.set i x).getD i d = x := by
  rw [List.getD_eq_getElem?_getD, List.getElem?_set_self', List.getElem?_eq_getElem h]
  rfl

theorem getD_set_ne {α : Type} (l : List α) (i j : ℕ) (x d : α) (h : i ≠ j) :
    (l.set i x).getD j d = l.getD j d := by
  rw [List.getD_eq_getElem?_getD, List.getD_eq_getElem?_getD, List.getElem?_set_ne h]

theorem range_one_eq : List.range 1 = [0] := by
  rw [List.range_succ, List.range_zero]
  rfl

theorem filter_range_eq_nil (m c : ℕ) (h : m ≤ c) :
    (List.range m).filter (fun t => decide (t = c)) = [] := by
  rw [List.filter_eq_nil_iff]
  intro t ht
  rw [List.mem_range] at ht
  simp only [decide_eq_true_eq]
  omega

theorem filter_range_eq_singleton (m c : ℕ) (h : c < m) :
    (List.range m).filter (fun t => decide (t = c)) = [c] := by
  induction m with
  | zero => omega
  | succ m ih =>
    rw [List.range_succ, List.filter_append]
    by_cases hc : c < m
    · rw [ih hc]
      have hone : List.filter (fun t => decide (t = c)) [m] = [] := by
        rw [List.filter_eq_nil_iff]
        intro t ht
        simp only [List.mem_singleton] at ht
        simp only [decide_eq_true_eq]
        omega
      rw [hone, List.append_nil]
    · have hcm : c = m := by omega
      subst hcm
      rw [filter_range_eq_nil c c le_rfl, List.nil_append]
      simp [List.filter_cons]

theorem intTrunc_intCast (v : ℤ) : intTrunc ((v : ℚ)) = v := by
  unfold intTrunc
  rw [Rat.num_intCast, Rat.den_intCast]
  simp [Int.tdiv_one]

theorem intTrunc_zero : intTrunc 0 = 0 := by
  have h0 : ((0 : ℤ) : ℚ) = 0 := by norm_num
  rw [← h0, intTrunc_intCast]

theorem boolToInt_decide (P : Prop) [Decidable P] :
    boolToInt (decide P) = if P then 1 else 0 := by
  by_cases h : P
  · simp [boolToInt, h]
  · simp [boolToInt, h]

/-! Claim C3: `chop_to_unit_multiple` truncating division. -/

/-- C3: for every pianoroll and every positive `ticks_per_unit`,
`chop_to_unit_multiple` returns `M = floor(num_ticks / ticks_per_unit)`
together with exactly the first `M * ticks_per_unit` ticks, so
`M * ticks_per_unit ≤ num_ticks`, and `M = 0` with an empty result when
`num_ticks < ticks_per_unit`; concretely, 10 ticks with
`ticks_per_unit = 4` give `M = 2` and truncated length 8. -/
theorem chop_to_unit_multiple_spec (pianoroll : List (List ℚ)) (ticks_per_unit : ℕ)
    (h : 0 < ticks_per_unit) :
    (chop_to_unit_multiple pianoroll ticks_per_unit).1 = pianoroll.length / ticks_per_unit ∧
    (chop_to_unit_multiple pianoroll ticks_per_unit).1 * ticks_per_unit ≤ pianoroll.length ∧
    (chop_to_unit_multiple pianoroll ticks_per_unit).2.length =
      (chop_to_unit_multiple pianoroll ticks_per_unit).1 * ticks_per_unit ∧
    (∀ i, i < (chop_to_unit_multiple pianoroll ticks_per_unit).1 * ticks_per_unit →
      (chop_to_unit_multiple pianoroll ticks_per_unit).2.getD i [] = pianoroll.getD i []) ∧
    (pianoroll.length < ticks_per_unit →
      (chop_to_unit_multiple pianoroll ticks_per_unit).1 = 0 ∧
      (chop_to_unit_multiple pianoroll ticks_per_unit).2 = []) ∧
    (chop_to_unit_multiple ((List.range 10).map (fun t => [(t : ℚ)])) 4).1 = 2 ∧
    (chop_to_unit_multiple ((List.range 10).map (fun t => [(t : ℚ)])) 4).2.length = 8 := by
  have hle : pianoroll.length / ticks_per_unit * ticks_per_unit ≤ pianoroll.length :=
    Nat.div_mul_le_self _ _
  refine ⟨rfl, hle, ?_, ?_, ?_, rfl, rfl⟩
  · simp only [chop_to_unit_multiple, List.length_take]
    omega
  · intro i hi
    exact getD_take _ _ _ _ hi
  · intro hlt
    have hz : pianoroll.length / ticks_per_unit = 0 := Nat.div_eq_of_lt hlt
    constructor
    · exact hz
    · simp only [chop_to_unit_multiple, hz, Nat.zero_mul, List.take_zero]

/-- Witness for C3 at a concrete input. -/
theorem chop_to_unit_multiple_spec_witness :
    0 < 4 ∧
    ((chop_to_unit_multiple [[(1 : ℚ)]] 4).1 = [[(1 : ℚ)]].length / 4 ∧
     (chop_to_unit_multiple [[(1 : ℚ)]] 4).1 * 4 ≤ [[(1 : ℚ)]].length ∧
     (chop_to_unit_multiple [[(1 : ℚ)]] 4).2.length =
       (chop_to_unit_multiple [[(1 : ℚ)]] 4).1 * 4 ∧
     (∀ i, i < (chop_to_unit_multiple [[(1 : ℚ)]] 4).1 * 4 →
       (chop_to_unit_multiple [[(1 : ℚ)]] 4).2.getD i [] = [[(1 : ℚ)]].getD i []) ∧
     ([[(1 : ℚ)]].length < 4 →
       (chop_to_unit_multiple [[(1 : ℚ)]] 4).1 = 0 ∧
       (chop_to_unit_multiple [[(1 : ℚ)]] 4).2 = []) ∧
     (chop_to_unit_multiple ((List.range 10).map (fun t => [(t : ℚ)])) 4).1 = 2 ∧
     (chop_to_unit_multiple ((List.range 10).map (fun t => [(t : ℚ)])) 4).2.length = 8) :=
  ⟨by decide, chop_to_unit_multiple_spec [[(1 : ℚ)]] 4 (by decide)⟩

/-! Claim C4: `shuffle_left_right` is a per-index exchange. -/

/-- C4: for equal-length unit lists and every realization of the random
boolean vector, each output index holds either the (left, right) pair or
the swapped (right, left) pair of that same index, and index order is
preserved in both outputs. -/
theorem shuffle_left_right_spec (bools : List Bool)
    (left_units right_units : List (List (List ℚ)))
    (h : left_units.length = right_units.length) :
    (shuffle_left_right bools left_units right_units).1.length = left_units.length ∧
    (shuffle_left_right bools left_units right_units).2.length = right_units.length ∧
    ∀ i, i < left_units.length →
      ((shuffle_left_right bools left_units right_units).1.getD i [] = left_units.getD i [] ∧
       (shuffle_left_right bools left_units right_units).2.getD i [] = right_units.getD i []) ∨
      ((shuffle_left_right bools left_units right_units).1.getD i [] = right_units.getD i [] ∧
       (shuffle_left_right bools left_units right_units).2.getD i [] = left_units.getD i []) := by
  refine ⟨by simp [shuffle_left_right], by simp [shuffle_left_right], ?_⟩
  intro i hi
  have hi2 : i < right_units.length := h ▸ hi
  simp only [shuffle_left_right, getD_range_map, if_pos hi, if_pos hi2]
  by_cases hb : bools.getD i false
  · rw [if_pos hb, if_pos hb]
    right
    exact ⟨rfl, rfl⟩
  · rw [if_neg hb, if_neg hb]
    left
    exact ⟨rfl, rfl⟩

/-- Witness for C4 at a concrete input. -/
theorem shuffle_left_right_spec_witness :
    ([[[(1 : ℚ)]], [[(2 : ℚ)]]] : List (List (List ℚ))).length =
      ([[[(3 : ℚ)]], [[(4 : ℚ)]]] : List (List (List ℚ))).length ∧
    ((shuffle_left_right [true, false] [[[(1 : ℚ)]], [[(2 : ℚ)]]] [[[(3 : ℚ)]], [[(4 : ℚ)]]]).1.length =
      ([[[(1 : ℚ)]], [[(2 : ℚ)]]] : List (List (List ℚ))).length ∧
     (shuffle_left_right [true, false] [[[(1 : ℚ)]], [[(2 : ℚ)]]] [[[(3 : ℚ)]], [[(4 : ℚ)]]]).2.length =
      ([[[(3 : ℚ)]], [[(4 : ℚ)]]] : List (List (List ℚ))).length ∧
     ∀ i, i < ([[[(1 : ℚ)]], [[(2 : ℚ)]]] : List (List (List ℚ))).length →
      ((shuffle_left_right [true, false] [[[(1 : ℚ)]], [[(2 : ℚ)]]] [[[(3 : ℚ)]], [[(4 : ℚ)]]]).1.getD i [] =
         ([[[(1 : ℚ)]], [[(2 : ℚ)]]] : List (List (List ℚ))).getD i [] ∧
       (shuffle_left_right [true, false] [[[(1 : ℚ)]], [[(2 : ℚ)]]] [[[(3 : ℚ)]], [[(4 : ℚ)]]]).2.getD i [] =
         ([[[(3 : ℚ)]], [[(4 : ℚ)]]] : List (List (List ℚ))).getD i []) ∨
      ((shuffle_left_right [true, false] [[[(1 : ℚ)]], [[(2 : ℚ)]]] [[[(3 : ℚ)]], [[(4 : ℚ)]]]).1.getD i [] =
         ([[[(3 : ℚ)]], [[(4 : ℚ)]]] : List (List (List ℚ))).getD i [] ∧
       (shuffle_left_right [true, false] [[[(1 : ℚ)]], [[(2 : ℚ)]]] [[[(3 : ℚ)]], [[(4 : ℚ)]]]).2.getD i [] =
         ([[[(1 : ℚ)]], [[(2 : ℚ)]]] : List (List (List ℚ))).getD i [])) :=
  ⟨by decide,
   shuffle_left_right_spec [true, false] [[[(1 : ℚ)]], [[(2 : ℚ)]]] [[[(3 : ℚ)]], [[(4 : ℚ)]]]
     (by decide)⟩

/-! Claim C10: `pad_pianoroll` error at `min_pitch = 0` and column
placement for `min_pitch ≥ 1`. -/

/-- C10: `pad_pianoroll` raises (returns `none`) whenever `min_pitch = 0`
because the front zero block is built with width `min_pitch - 1 = -1`;
for `min_pitch ≥ 1` it returns the 128-wide matrix in which input pitch
column `p` sits at output column `min_pitch - 1 + p`. -/
theorem pad_pianoroll_spec (pianoroll : List (List ℚ)) (min_pitch max_pitch : ℕ)
    (h1 : 1 ≤ min_pitch) (h2 : max_pitch ≤ 127)
    (hshape : ∀ row ∈ pianoroll, (row.length : ℤ) = (max_pitch : ℤ) - (min_pitch : ℤ) + 1) :
    pad_pianoroll pianoroll 0 max_pitch = none ∧
    pad_pianoroll pianoroll min_pitch max_pitch =
      some (pianoroll.map (fun r =>
        List.replicate (min_pitch - 1) (0 : ℚ) ++ r ++ List.replicate (128 - max_pitch) (0 : ℚ))) ∧
    (∀ row ∈ pianoroll, ∀ p < row.length,
      (List.replicate (min_pitch - 1) (0 : ℚ) ++ row ++
          List.replicate (128 - max_pitch) (0 : ℚ)).getD (min_pitch - 1 + p) 0 = row.getD p 0 ∧
      (List.replicate (min_pitch - 1) (0 : ℚ) ++ row ++
          List.replicate (128 - max_pitch) (0 : ℚ)).length = 128) := by
  refine ⟨?_, ?_, ?_⟩
  · unfold pad_pianoroll
    split
    · rw [if_neg]
      omega
    · rfl
  · have hall1 : pianoroll.all
        (fun r => (r.length : ℤ) == (max_pitch : ℤ) - (min_pitch : ℤ) + 1) = true := by
      rw [List.all_eq_true]
      intro r hr
      exact beq_iff_eq.mpr (hshape r hr)
    unfold pad_pianoroll
    rw [if_pos hall1, if_pos ⟨h1, by omega⟩, if_pos]
    rw [List.all_eq_true]
    intro r hr
    rw [List.mem_map] at hr
    obtain ⟨row, hrow, rfl⟩ := hr
    have hlen := hshape row hrow
    rw [beq_iff_eq]
    simp only [List.length_append, List.length_replicate]
    omega
  · intro row hrow p hp
    have hlen := hshape row hrow
    constructor
    · rw [List.getD_eq_getElem?_getD, List.getD_eq_getElem?_getD, List.getElem?_append]
      rw [if_pos (by simp only [List.length_append, List.length_replicate]; omega)]
      rw [List.getElem?_append]
      rw [if_neg (by simp only [List.length_replicate]; omega)]
      simp only [List.length_replicate]
      have harith : min_pitch - 1 + p - (min_pitch - 1) = p := by omega
      rw [harith]
    · simp only [List.length_append, List.length_replicate]
      omega

/-- Witness for C10 at a concrete input. -/
theorem pad_pianoroll_spec_witness :
    1 ≤ 60 ∧ 60 ≤ 127 ∧
    (pad_pianoroll [[(3 : ℚ)]] 0 60 = none ∧
     pad_pianoroll [[(3 : ℚ)]] 60 60 =
       some ([[(3 : ℚ)]].map (fun r =>
         List.replicate (60 - 1) (0 : ℚ) ++ r ++ List.replicate (128 - 60) (0 : ℚ))) ∧
     (∀ row ∈ [[(3 : ℚ)]], ∀ p < row.length,
       (List.replicate (60 - 1) (0 : ℚ) ++ row ++
           List.replicate (128 - 60) (0 : ℚ)).getD (60 - 1 + p) 0 = row.getD p 0 ∧
       (List.replicate (60 - 1) (0 : ℚ) ++ row ++
           List.replicate (128 - 60) (0 : ℚ)).length = 128)) :=
  ⟨by decide, by decide,
   pad_pianoroll_spec [[(3 : ℚ)]] 60 60 (by decide) (by decide) (by decide)⟩

/-! Claim C8: the crop-then-pad round trip.  The source places input
column `p` at output column `min_pitch - 1 + p` (front padding width
`min_pitch - 1`, line 35), so the reconstruction is shifted one pitch
down instead of matching the original columns, and `min_pitch = 0`
raises.  The theorem evaluates both failure modes at the concrete
failing input. -/

set_option maxRecDepth 40000 in
/-- C8 fails on the code: cropping the 1-row pianoroll with a single 1
at pitch column 60 to `[60, 60]` and padding back yields the 1 at column
59, not 60 (conjunct 2 exhibits the mismatch with the original), and the
same round trip with `min_pitch = 0` raises (`none`). -/
theorem crop_pad_shifted :
    ((crop_pianoroll [(List.range 128).map (fun j => if j = 60 then (1 : ℚ) else 0)] 60 60).bind
        (fun c => pad_pianoroll c 60 60) =
      some [List.replicate 59 (0 : ℚ) ++ (1 : ℚ) :: List.replicate 68 (0 : ℚ)]) ∧
    ((List.replicate 59 (0 : ℚ) ++ (1 : ℚ) :: List.replicate 68 (0 : ℚ)).getD 60 0 = 0 ∧
     ((List.range 128).map (fun j => if j = 60 then (1 : ℚ) else 0)).getD 60 0 = 1) ∧
    ((crop_pianoroll [(List.range 128).map (fun j => if j = 60 then (1 : ℚ) else 0)] 0 0).bind
        (fun c => pad_pianoroll c 0 0) = none) := by
  refine ⟨by decide, ⟨by decide, by decide⟩, by decide⟩

/-! Claim C6: `create_units` and out-of-range `partition_note`. -/

/-- C6 counterexample: at `partition_note - min_pitch = 7`, outside
`[0, num_pitches] = [0, 2]`, `create_units` does not fail: on this
4-tick pianoroll (chopped unit count `M = 2`) the slice assignments
clamp the index and the call returns units (the left side is the whole
pianoroll, the right side all zero). -/
theorem create_units_no_range_check_cex :
    ((2 : ℤ) < (7 : ℤ) - 0) ∧
    create_units [[1, 1], [1, 1], [1, 1], [1, 1]] 2 2 7 0 0 [false, false] =
      some ([[[1, 1], [1, 1]], [[1, 1], [1, 1]]],
            [[[0, 0], [0, 0]], [[0, 0], [0, 0]]]) := by
  constructor
  · decide
  · norm_num [create_units, shuffledUnits, keepMask, leftUnits, rightUnits,
      chop_to_unit_multiple, unitMean, maskFilter, shuffle_left_right, reshapeUnits,
      zeroFrom, zeroUpto, pyIdx, List.range_succ, List.replicate]

/-- C6 amended: `create_units` performs no range check on
`partition_note`, so whether the call completes never depends on the
partition value: for every well-shaped pianoroll and positive
`ticks_per_unit`, if the chopped unit count `M` differs from 1 the call
completes and returns units for every value of
`partition_note - min_pitch`, including values outside
`[0, num_pitches]` (out-of-range slice indices are clamped, negative
ones count from the end, Python-style); and if `M = 1` the call fails
for every value of `partition_note - min_pitch`, in-range ones included,
from the squeeze/0-d-mask shape assertions, not from any range check. -/
theorem create_units_no_range_check (pianoroll : List (List ℚ))
    (num_pitches ticks_per_unit : ℕ) (partition_note min_pitch : ℤ)
    (filter_threshold : ℚ) (bools : List Bool)
    (hrect : ∀ row ∈ pianoroll, row.length = num_pitches)
    (htpu : 0 < ticks_per_unit) :
    ((chop_to_unit_multiple pianoroll ticks_per_unit).1 ≠ 1 →
      ∃ iu cu, create_units pianoroll num_pitches ticks_per_unit partition_note min_pitch
        filter_threshold bools = some (iu, cu)) ∧
    ((chop_to_unit_multiple pianoroll ticks_per_unit).1 = 1 →
      create_units pianoroll num_pitches ticks_per_unit partition_note min_pitch
        filter_threshold bools = none) := by
  have hguard : pianoroll.all (fun r => r.length == num_pitches) = true := by
    rw [List.all_eq_true]
    intro r hr
    exact beq_iff_eq.mpr (hrect r hr)
  constructor
  · intro hM
    unfold create_units
    rw [if_pos hguard, if_neg hM]
    exact ⟨_, _, rfl⟩
  · intro hM
    unfold create_units
    rw [if_pos hguard, if_pos hM]

/-- Witness for the amended C6: a 2-unit pianoroll with a negative
partition index. -/
theorem create_units_no_range_check_witness :
    (∀ row ∈ [[(2 : ℚ)], [(2 : ℚ)]], row.length = 1) ∧ 0 < 1 ∧
    (((chop_to_unit_multiple [[(2 : ℚ)], [(2 : ℚ)]] 1).1 ≠ 1 →
      ∃ iu cu, create_units [[(2 : ℚ)], [(2 : ℚ)]] 1 1 (-5) 0 0 [true, false] =
        some (iu, cu)) ∧
     ((chop_to_unit_multiple [[(2 : ℚ)], [(2 : ℚ)]] 1).1 = 1 →
      create_units [[(2 : ℚ)], [(2 : ℚ)]] 1 1 (-5) 0 0 [true, false] = none)) :=
  ⟨by decide, by decide,
   create_units_no_range_check [[(2 : ℚ)], [(2 : ℚ)]] 1 1 (-5) 0 0 [true, false]
     (by decide) (by decide)⟩

/-! Claim C2: in-bounds indexing in `pianoroll_2_events`.  The code
indexes `diff[:, pitch]` with the absolute pitch `min_pitch + p` (lines
153-155) although `diff` has only `num_pitches` columns, so for every
`min_pitch ≥ 1` the loop reaches a pitch whose column index is out of
bounds and numpy raises `IndexError`. -/

/-- One fold step killing the whole fold: if the function returns `none`
at the last index, the `Option.bind` fold over `range (k+1)` is `none`. -/
theorem foldl_bind_none_of_last {α : Type} (f : ℕ → α → Option α) (k : ℕ)
    (init : Option α) (hf : ∀ a, f k a = none) :
    (List.range (k + 1)).foldl (fun o p => o.bind (f p)) init = none := by
  rw [List.range_succ, List.foldl_append, List.foldl_cons, List.foldl_nil]
  cases hprev : (List.range k).foldl (fun o p => o.bind (f p)) init with
  | none => rfl
  | some a => exact hf a

/-- C2 fails on the code: for every pianoroll passing the shape assert
and every `1 ≤ min_pitch ≤ max_pitch`, `pianoroll_2_events` raises
(`none`): the per-pitch loop indexes the diff array at the absolute
pitch `min_pitch + p`, which leaves the valid column range. -/
theorem pianoroll_2_events_pos_min_pitch_none (pianoroll : List (List ℚ))
    (min_pitch max_pitch : ℕ) (h1 : 1 ≤ min_pitch) (hmm : min_pitch ≤ max_pitch)
    (hshape : (pianoroll.length : ℤ) = (max_pitch : ℤ) - (min_pitch : ℤ) + 1) :
    pianoroll_2_events pianoroll min_pitch max_pitch = none := by
  have hnp : 1 ≤ pianoroll.length := by omega
  obtain ⟨k, hk⟩ : ∃ k, pianoroll.length = k + 1 := ⟨pianoroll.length - 1, by omega⟩
  unfold pianoroll_2_events
  rw [if_pos hshape, hk]
  have hf : ∀ ev, processPitch
      ((transposeRC pianoroll (pianoroll.headD []).length).map (fun r => r.map intTrunc))
      (k + 1) (pianoroll.headD []).length min_pitch k ev = none := by
    intro ev
    unfold processPitch
    rw [if_neg]
    omega
  exact foldl_bind_none_of_last _ k _ hf

/-- Witness for C2 at a concrete input: a 1-pitch, 2-tick pianoroll with
`min_pitch = max_pitch = 60`. -/
theorem pianoroll_2_events_pos_min_pitch_none_witness :
    1 ≤ 60 ∧ 60 ≤ 60 ∧
    (([[(7 : ℚ), (7 : ℚ)]] : List (List ℚ)).length : ℤ) = (60 : ℤ) - (60 : ℤ) + 1 ∧
    pianoroll_2_events [[(7 : ℚ), (7 : ℚ)]] 60 60 = none :=
  ⟨by decide, by decide, by decide,
   pianoroll_2_events_pos_min_pitch_none [[(7 : ℚ), (7 : ℚ)]] 60 60
     (by decide) (by decide) (by decide)⟩

/-! Claim C1: the concrete quantizer scenario.  The spec's pianoroll
holding the run `[0,0,5,5,5,0,0,0]` on pitch 60 with
`min_pitch = max_pitch = 60` hits the same out-of-bounds `diff` indexing
as C2, so the code raises instead of producing the two claimed events;
with `min_pitch = 0` (the only completing configuration) the very same
matrix produces exactly the claimed bucket pattern, on note 0. -/

/-! Analysis of `pianoroll_2_events` on a single-run, one-pitch
pianoroll with `min_pitch = max_pitch = 0` (the only configuration in
which the function completes, see C2): the padded first difference has
exactly one positive edge at `a` and one negative edge at `b`, the
velocity is the mean of the constant run, and the note-off is emitted
only when `b < n`. -/

theorem singleRunRow_length (n a b : ℕ) (v : ℤ) : (singleRunRow n a b v).length = n := by
  simp [singleRunRow]

theorem singleRunRow_getD (n a b : ℕ) (v : ℤ) (t : ℕ) (ht : t < n) :
    (singleRunRow n a b v).getD t 0 = if a ≤ t ∧ t < b then (v : ℚ) else 0 := by
  rw [singleRunRow, getD_range_map, if_pos ht]

theorem clippedRun_eq (n a b : ℕ) (v : ℤ) :
    clippedRun n a b v =
      (List.range n).map (fun t => [intTrunc ((singleRunRow n a b v).getD t 0)]) := by
  unfold clippedRun transposeRC
  rw [List.map_map]
  apply List.map_congr_left
  intro t _
  simp only [Function.comp_apply, List.map_cons, List.map_nil]

theorem clippedRun_length (n a b : ℕ) (v : ℤ) : (clippedRun n a b v).length = n := by
  rw [clippedRun_eq]
  simp

theorem bcolRun (n a b : ℕ) (v : ℤ) (hv : v ≠ 0) :
    (clippedRun n a b v).map (fun r => decide (r.getD 0 0 ≠ 0)) =
      (List.range n).map (fun t => decide (a ≤ t ∧ t < b)) := by
  rw [clippedRun_eq, List.map_map]
  apply List.map_congr_left
  intro t ht
  rw [List.mem_range] at ht
  simp only [Function.comp_apply, List.getD_cons_zero]
  rw [singleRunRow_getD n a b v t ht]
  by_cases hc : a ≤ t ∧ t < b
  · rw [if_pos hc, intTrunc_intCast]
    simp [hc, hv]
  · rw [if_neg hc, intTrunc_zero]
    simp [hc]

theorem padRun_getD (n a b : ℕ) (hbn : b ≤ n) (i : ℕ) :
    (false :: ((List.range n).map (fun t => decide (a ≤ t ∧ t < b)) ++ [false])).getD i false =
      decide (a + 1 ≤ i ∧ i ≤ b) := by
  cases i with
  | zero =>
    simp only [List.getD_cons_zero]
    symm
    rw [decide_eq_false_iff_not]
    omega
  | succ j =>
    simp only [List.getD_cons_succ]
    by_cases hj : j < n
    · rw [getD_append_left _ _ _ _ (by simpa using hj)]
      rw [getD_range_map, if_pos hj, decide_eq_decide]
      omega
    · rw [getD_append_right _ _ _ _ (by simpa using hj)]
      have hsing : ∀ k : ℕ, ([false] : List Bool).getD k false = false := by
        intro k
        cases k with
        | zero => rfl
        | succ k => rfl
      rw [hsing]
      symm
      rw [decide_eq_false_iff_not]
      omega

theorem diffColumnRun_getD (n a b : ℕ) (v : ℤ) (hv : v ≠ 0) (hab : a < b) (hbn : b ≤ n)
    (t : ℕ) (ht : t < n + 1) :
    (diffColumn (clippedRun n a b v) 0).getD t 0 =
      if t = a then 1 else if t = b then -1 else 0 := by
  have hd : diffColumn (clippedRun n a b v) 0 =
      (List.range (n + 1)).map (fun t =>
        boolToInt ((false :: ((List.range n).map (fun s => decide (a ≤ s ∧ s < b)) ++
            [false])).getD (t + 1) false) -
        boolToInt ((false :: ((List.range n).map (fun s => decide (a ≤ s ∧ s < b)) ++
            [false])).getD t false)) := by
    simp only [diffColumn]
    rw [bcolRun n a b v hv]
    have hlen : (false :: ((List.range n).map (fun s => decide (a ≤ s ∧ s < b)) ++
        [false])).length - 1 = n + 1 := by
      simp
    rw [hlen]
  rw [hd, getD_range_map, if_pos ht]
  rw [padRun_getD n a b hbn (t + 1), padRun_getD n a b hbn t]
  rw [boolToInt_decide, boolToInt_decide]
  split_ifs <;> omega

theorem posRun (n a b : ℕ) (v : ℤ) (hv : v ≠ 0) (hab : a < b) (hbn : b ≤ n) :
    positiveIndices (diffColumn (clippedRun n a b v) 0) = [a] := by
  unfold positiveIndices
  have hlen : (diffColumn (clippedRun n a b v) 0).length = n + 1 := by
    simp only [diffColumn]
    simp [clippedRun_length]
  rw [hlen]
  have hcong : (List.range (n + 1)).filter
      (fun t => decide (0 < (diffColumn (clippedRun n a b v) 0).getD t 0)) =
      (List.range (n + 1)).filter (fun t => decide (t = a)) := by
    apply List.filter_congr
    intro t ht
    rw [List.mem_range] at ht
    rw [diffColumnRun_getD n a b v hv hab hbn t ht, decide_eq_decide]
    split_ifs <;> omega
  rw [hcong]
  exact filter_range_eq_singleton (n + 1) a (by omega)

theorem negRun (n a b : ℕ) (v : ℤ) (hv : v ≠ 0) (hab : a < b) (hbn : b ≤ n) :
    negativeIndices (diffColumn (clippedRun n a b v) 0) = [b] := by
  unfold negativeIndices
  have hlen : (diffColumn (clippedRun n a b v) 0).length = n + 1 := by
    simp only [diffColumn]
    simp [clippedRun_length]
  rw [hlen]
  have hcong : (List.range (n + 1)).filter
      (fun t => decide ((diffColumn (clippedRun n a b v) 0).getD t 0 < 0)) =
      (List.range (n + 1)).filter (fun t => decide (t = b)) := by
    apply List.filter_congr
    intro t ht
    rw [List.mem_range] at ht
    rw [diffColumnRun_getD n a b v hv hab hbn t ht, decide_eq_decide]
    split_ifs <;> omega
  rw [hcong]
  exact filter_range_eq_singleton (n + 1) b (by omega)

theorem colRun (n a b : ℕ) (v : ℤ) :
    (clippedRun n a b v).map (fun r => r.getD 0 0) =
      (List.range n).map (fun t => if a ≤ t ∧ t < b then v else 0) := by
  rw [clippedRun_eq, List.map_map]
  apply List.map_congr_left
  intro t ht
  rw [List.mem_range] at ht
  simp only [Function.comp_apply, List.getD_cons_zero]
  rw [singleRunRow_getD n a b v t ht]
  by_cases hc : a ≤ t ∧ t < b
  · rw [if_pos hc, if_pos hc, intTrunc_intCast]
  · rw [if_neg hc, if_neg hc, intTrunc_zero]

theorem meanVelocityRun (n a b : ℕ) (v : ℤ) (hab : a < b) (hbn : b ≤ n) :
    meanVelocity (clippedRun n a b v) 0 a b = v := by
  have hslice : (((clippedRun n a b v).map (fun r => r.getD 0 0)).drop a).take (b - a) =
      List.replicate (b - a) v := by
    rw [colRun, List.eq_replicate_iff]
    constructor
    · simp only [List.length_take, List.length_drop, List.length_map, List.length_range]
      omega
    · intro x hx
      obtain ⟨i, hi, hx⟩ := List.mem_iff_getElem.mp hx
      simp only [List.length_take, List.length_drop, List.length_map, List.length_range] at hi
      simp only [List.getElem_take, List.getElem_drop, List.getElem_map,
        List.getElem_range] at hx
      rw [← hx, if_pos (by omega)]
  simp only [meanVelocity]
  rw [hslice, List.sum_replicate, List.length_replicate]
  have hk0 : b - a ≠ 0 := by omega
  have hcast : (((b - a) • v : ℤ) : ℚ) = ((b - a : ℕ) : ℚ) * (v : ℚ) := by
    push_cast [nsmul_eq_mul]
    ring
  rw [hcast, mul_div_cancel_left₀ _ (by exact_mod_cast hk0)]
  exact intTrunc_intCast v

theorem events_singleRun (n a b : ℕ) (v : ℤ) (hab : a < b) (hbn : b ≤ n) (hv : v ≠ 0) :
    pianoroll_2_events [singleRunRow n a b v] 0 0 =
      some ((List.range n).map (fun t =>
        if t = a then [MidiMsg.mk 0 v] else if t = b then [MidiMsg.mk 0 0] else [])) := by
  have ha_n : a < n := by omega
  unfold pianoroll_2_events
  rw [if_pos (by norm_num)]
  simp only [List.length_singleton, List.headD_cons, singleRunRow_length]
  rw [show (transposeRC [singleRunRow n a b v] n).map (fun r => r.map intTrunc) =
    clippedRun n a b v from rfl]
  rw [range_one_eq]
  simp only [List.foldl_cons, List.foldl_nil, Option.some_bind]
  simp only [processPitch, Nat.add_zero]
  rw [if_pos (show (0 : ℕ) < 1 by omega)]
  rw [posRun n a b v hv hab hbn, negRun n a b v hv hab hbn]
  simp only [List.length_singleton]
  rw [range_one_eq]
  simp only [List.foldl_cons, List.foldl_nil, Option.some_bind]
  rw [if_pos (show (0 : ℕ) < 1 by omega)]
  simp only [List.getD_cons_zero]
  rw [meanVelocityRun n a b v hab hbn]
  simp only [appendAt]
  rw [getD_replicate n a ([] : List MidiMsg) [], if_pos ha_n, List.nil_append]
  rw [getD_set_ne (List.replicate n ([] : List MidiMsg)) a b [MidiMsg.mk 0 v] []
    (show a ≠ b by omega)]
  rw [getD_replicate n b ([] : List MidiMsg) [], ite_self, List.nil_append]
  congr 1
  by_cases hb : b < n
  · rw [if_pos hb]
    apply List.ext_getElem
    · simp
    · intro i h1 h2
      simp only [List.getElem_set, List.getElem_replicate, List.getElem_map, List.getElem_range]
      split_ifs <;> first | rfl | omega
  · rw [if_neg hb]
    apply List.ext_getElem
    · simp
    · intro i h1 h2
      have hin : i < n := by simpa using h1
      simp only [List.getElem_set, List.getElem_replicate, List.getElem_map, List.getElem_range]
      split_ifs <;> first | rfl | omega

/-! Claim C7: a note still on at the final tick gets no note-off. -/

/-- C7: for every single-run pianoroll (run `[a, b)` of nonzero value
`v`, `b ≤ n`), the events are exactly one note-on at bucket `a` and a
velocity-0 note-off at bucket `b` exactly when `b < n` (the guard
`note_offs[idx] < num_ticks` of line 161): when the run is still on at
the final tick (`b = n`) the conjunction `t = b ∧ b < n` is false
everywhere, so the note-on appears with no note-off anywhere. -/
theorem pianoroll_2_events_final_tick (n a b : ℕ) (v : ℤ)
    (hab : a < b) (hbn : b ≤ n) (hv : v ≠ 0) :
    pianoroll_2_events [singleRunRow n a b v] 0 0 =
      some ((List.range n).map (fun t =>
        if t = a then [MidiMsg.mk 0 v]
        else if t = b ∧ b < n then [MidiMsg.mk 0 0] else [])) := by
  rw [events_singleRun n a b v hab hbn hv]
  congr 1
  apply List.map_congr_left
  intro t ht
  rw [List.mem_range] at ht
  by_cases h1 : t = a
  · rw [if_pos h1, if_pos h1]
  · rw [if_neg h1, if_neg h1]
    by_cases h2 : t = b
    · rw [if_pos h2, if_pos ⟨h2, by omega⟩]
    · rw [if_neg h2, if_neg (by intro hcon; exact h2 hcon.1)]

/-- Witness for C7: a run of value 5 on ticks 1 and 2 of a 3-tick roll,
still on at the final tick; no note-off is produced. -/
theorem pianoroll_2_events_final_tick_witness :
    1 < 3 ∧ 3 ≤ 3 ∧ (5 : ℤ) ≠ 0 ∧
    pianoroll_2_events [singleRunRow 3 1 3 5] 0 0 =
      some ((List.range 3).map (fun t =>
        if t = 1 then [MidiMsg.mk 0 5]
        else if t = 3 ∧ 3 < 3 then [MidiMsg.mk 0 0] else [])) :=
  ⟨by decide, by decide, by decide,
   pianoroll_2_events_final_tick 3 1 3 5 (by decide) (by decide) (by decide)⟩

/-! Claim C1: the concrete quantizer scenario.  The spec's pianoroll
holding the run `[0,0,5,5,5,0,0,0]` on pitch 60 with
`min_pitch = max_pitch = 60` hits the out-of-bounds `diff` indexing of
C2, so the code raises instead of producing the two claimed events; with
`min_pitch = 0` (the only completing configuration) the very same matrix
produces exactly the claimed bucket pattern, on note 0. -/

/-- C1 fails on the code at the claimed input: the scenario with
`min_pitch = max_pitch = 60` raises (`none`); the identical matrix at
`min_pitch = max_pitch = 0` yields exactly one note-on of velocity 5 in
bucket 2 and one velocity-0 note-off in bucket 5, every other bucket
empty. -/
theorem pianoroll_2_events_concrete_run :
    pianoroll_2_events [[0, 0, 5, 5, 5, 0, 0, 0]] 60 60 = none ∧
    pianoroll_2_events [[0, 0, 5, 5, 5, 0, 0, 0]] 0 0 =
      some [[], [], [MidiMsg.mk 0 5], [], [], [MidiMsg.mk 0 0], [], []] := by
  constructor
  · decide
  · have hrow : ([[0, 0, 5, 5, 5, 0, 0, 0]] : List (List ℚ)) = [singleRunRow 8 2 5 5] := by
      decide
    rw [hrow, events_singleRun 8 2 5 5 (by decide) (by decide) (by decide)]
    decide

/-! Lemmas about `maskFilter`, `shuffle_left_right` membership and unit
shapes, used for the `create_units` claims. -/

theorem maskFilter_nil_right {α : Type} (m : List Bool) :
    maskFilter m ([] : List α) = [] := by
  cases m <;> rfl

theorem maskFilter_cons {α : Type} (c : Bool) (m : List Bool) (a : α) (l : List α) :
    maskFilter (c :: m) (a :: l) =
      if c then a :: maskFilter m l else maskFilter m l := by
  simp only [maskFilter, List.zip_cons_cons, List.filter_cons]
  cases c
  · simp
  · simp

theorem maskFilter_map_self {α : Type} (p : α → Bool) (l : List α) :
    maskFilter (l.map p) l = l.filter p := by
  induction l with
  | nil => rfl
  | cons a l ih =>
    rw [List.map_cons, maskFilter_cons, List.filter_cons]
    by_cases hpa : p a
    · rw [if_pos hpa, if_pos hpa, ih]
    · rw [if_neg hpa, if_neg hpa, ih]

theorem mem_of_mem_maskFilter {α : Type} (m : List Bool) (l : List α) (x : α)
    (h : x ∈ maskFilter m l) : x ∈ l := by
  induction m generalizing l with
  | nil => cases h
  | cons c m ih =>
    cases l with
    | nil => rw [maskFilter_nil_right] at h; cases h
    | cons a l =>
      rw [maskFilter_cons] at h
      by_cases hc : c = true
      · rw [if_pos hc] at h
        rcases List.mem_cons.mp h with h1 | h1
        · exact h1 ▸ List.mem_cons_self a l
        · exact List.mem_cons_of_mem a (ih l h1)
      · rw [if_neg hc] at h
        exact List.mem_cons_of_mem a (ih l h)

theorem maskFilter_length_eq {α β : Type} (m : List Bool) (l1 : List α) (l2 : List β)
    (h : l1.length = l2.length) :
    (maskFilter m l1).length = (maskFilter m l2).length := by
  induction m generalizing l1 l2 with
  | nil => rfl
  | cons c m ih =>
    cases l1 with
    | nil =>
      cases l2 with
      | nil => rfl
      | cons b l2 => simp at h
    | cons a l1 =>
      cases l2 with
      | nil => simp at h
      | cons b l2 =>
        rw [maskFilter_cons, maskFilter_cons]
        have htail : l1.length = l2.length := by simpa using h
        by_cases hc : c = true
        · rw [if_pos hc, if_pos hc]
          simp only [List.length_cons]
          rw [ih l1 l2 htail]
        · rw [if_neg hc, if_neg hc]
          exact ih l1 l2 htail

theorem maskFilter_zip {α β : Type} (m : List Bool) (l1 : List α) (l2 : List β)
    (h : l1.length = l2.length) :
    maskFilter m (l1.zip l2) = (maskFilter m l1).zip (maskFilter m l2) := by
  induction m generalizing l1 l2 with
  | nil => rfl
  | cons c m ih =>
    cases l1 with
    | nil =>
      cases l2 with
      | nil => rfl
      | cons b l2 => simp at h
    | cons a l1 =>
      cases l2 with
      | nil => simp at h
      | cons b l2 =>
        have htail : l1.length = l2.length := by simpa using h
        rw [List.zip_cons_cons, maskFilter_cons, maskFilter_cons, maskFilter_cons]
        by_cases hc : c = true
        · rw [if_pos hc, if_pos hc, if_pos hc, List.zip_cons_cons, ih l1 l2 htail]
        · rw [if_neg hc, if_neg hc, if_neg hc, ih l1 l2 htail]

theorem maskFilter_forall₂ {α β : Type} (R : α → β → Prop) (m : List Bool)
    (l1 : List α) (l2 : List β) (h : List.Forall₂ R l1 l2) :
    List.Forall₂ R (maskFilter m l1) (maskFilter m l2) := by
  induction m generalizing l1 l2 with
  | nil => exact List.Forall₂.nil
  | cons c m ih =>
    cases h with
    | nil => exact List.Forall₂.nil
    | @cons a b l1 l2 hab htail =>
      rw [maskFilter_cons, maskFilter_cons]
      by_cases hc : c = true
      · rw [if_pos hc, if_pos hc]
        exact List.Forall₂.cons hab (ih l1 l2 htail)
      · rw [if_neg hc, if_neg hc]
        exact ih l1 l2 htail

theorem getD_mem {α : Type} (l : List α) (i : ℕ) (d : α) (h : i < l.length) :
    l.getD i d ∈ l := by
  rw [List.getD_eq_getElem?_getD, List.getElem?_eq_getElem h]
  exact List.getElem_mem h

theorem chop_length (pianoroll : List (List ℚ)) (ticks_per_unit : ℕ) :
    (chop_to_unit_multiple pianoroll ticks_per_unit).2.length =
      (chop_to_unit_multiple pianoroll ticks_per_unit).1 * ticks_per_unit := by
  have hle := Nat.div_mul_le_self pianoroll.length ticks_per_unit
  simp only [chop_to_unit_multiple, List.length_take]
  omega

theorem zeroFrom_length (s : ℕ) (row : List ℚ) : (zeroFrom s row).length = row.length := by
  simp only [zeroFrom, List.length_append, List.length_take, List.length_replicate]
  omega

theorem zeroUpto_length (s : ℕ) (row : List ℚ) : (zeroUpto s row).length = row.length := by
  simp only [zeroUpto, List.length_append, List.length_drop, List.length_replicate]
  omega

theorem reshapeUnits_mem (roll : List (List ℚ)) (M ticks_per_unit : ℕ)
    (hlen : roll.length = M * ticks_per_unit) :
    ∀ u ∈ reshapeUnits roll M ticks_per_unit,
      u.length = ticks_per_unit ∧ ∀ r ∈ u, r ∈ roll := by
  intro u hu
  unfold reshapeUnits at hu
  rw [List.mem_map] at hu
  obtain ⟨i, hi, rfl⟩ := hu
  rw [List.mem_range] at hi
  constructor
  · have hmul : (i + 1) * ticks_per_unit ≤ M * ticks_per_unit :=
      Nat.mul_le_mul_right ticks_per_unit (by omega)
    have hdistrib : (i + 1) * ticks_per_unit = i * ticks_per_unit + ticks_per_unit := by ring
    simp only [List.length_take, List.length_drop]
    omega
  · intro r hr
    exact List.mem_of_mem_drop (List.mem_of_mem_take hr)

theorem mem_shuffle_fst (bools : List Bool) (L R : List (List (List ℚ)))
    (hlen : L.length = R.length) (u : List (List ℚ))
    (hu : u ∈ (shuffle_left_right bools L R).1) : u ∈ L ∨ u ∈ R := by
  simp only [shuffle_left_right] at hu
  rw [List.mem_map] at hu
  obtain ⟨i, hi, rfl⟩ := hu
  rw [List.mem_range] at hi
  by_cases hb : bools.getD i false
  · right
    rw [if_pos hb]
    exact getD_mem _ _ _ (by omega)
  · left
    rw [if_neg hb]
    exact getD_mem _ _ _ hi

theorem mem_shuffle_snd (bools : List Bool) (L R : List (List (List ℚ)))
    (hlen : L.length = R.length) (u : List (List ℚ))
    (hu : u ∈ (shuffle_left_right bools L R).2) : u ∈ L ∨ u ∈ R := by
  simp only [shuffle_left_right] at hu
  rw [List.mem_map] at hu
  obtain ⟨i, hi, rfl⟩ := hu
  rw [List.mem_range] at hi
  by_cases hb : bools.getD i false
  · left
    rw [if_pos hb]
    exact getD_mem _ _ _ (by omega)
  · right
    rw [if_neg hb]
    exact getD_mem _ _ _ hi

theorem leftUnits_dims (pianoroll : List (List ℚ)) (num_pitches ticks_per_unit : ℕ)
    (partition_note min_pitch : ℤ)
    (hrect : ∀ row ∈ pianoroll, row.length = num_pitches) :
    ∀ u ∈ leftUnits pianoroll num_pitches ticks_per_unit partition_note min_pitch,
      u.length = ticks_per_unit ∧ ∀ row ∈ u, row.length = num_pitches := by
  intro u hu
  unfold leftUnits at hu
  have hlen : ((chop_to_unit_multiple pianoroll ticks_per_unit).2.map
      (zeroFrom (pyIdx (partition_note - min_pitch) num_pitches))).length =
      (chop_to_unit_multiple pianoroll ticks_per_unit).1 * ticks_per_unit := by
    rw [List.length_map, chop_length]
  obtain ⟨h1, h2⟩ := reshapeUnits_mem _ _ _ hlen u hu
  refine ⟨h1, ?_⟩
  intro row hrow
  have hr2 := h2 row hrow
  rw [List.mem_map] at hr2
  obtain ⟨row0, hrow0, rfl⟩ := hr2
  rw [zeroFrom_length]
  exact hrect row0 (List.mem_of_mem_take hrow0)

theorem rightUnits_dims (pianoroll : List (List ℚ)) (num_pitches ticks_per_unit : ℕ)
    (partition_note min_pitch : ℤ)
    (hrect : ∀ row ∈ pianoroll, row.length = num_pitches) :
    ∀ u ∈ rightUnits pianoroll num_pitches ticks_per_unit partition_note min_pitch,
      u.length = ticks_per_unit ∧ ∀ row ∈ u, row.length = num_pitches := by
  intro u hu
  unfold rightUnits at hu
  have hlen : ((chop_to_unit_multiple pianoroll ticks_per_unit).2.map
      (zeroUpto (pyIdx (partition_note - min_pitch) num_pitches))).length =
      (chop_to_unit_multiple pianoroll ticks_per_unit).1 * ticks_per_unit := by
    rw [List.length_map, chop_length]
  obtain ⟨h1, h2⟩ := reshapeUnits_mem _ _ _ hlen u hu
  refine ⟨h1, ?_⟩
  intro row hrow
  have hr2 := h2 row hrow
  rw [List.mem_map] at hr2
  obtain ⟨row0, hrow0, rfl⟩ := hr2
  rw [zeroUpto_length]
  exact hrect row0 (List.mem_of_mem_take hrow0)

theorem leftUnits_length (pianoroll : List (List ℚ)) (num_pitches ticks_per_unit : ℕ)
    (partition_note min_pitch : ℤ) :
    (leftUnits pianoroll num_pitches ticks_per_unit partition_note min_pitch).length =
      (chop_to_unit_multiple pianoroll ticks_per_unit).1 := by
  simp [leftUnits, reshapeUnits]

theorem rightUnits_length (pianoroll : List (List ℚ)) (num_pitches ticks_per_unit : ℕ)
    (partition_note min_pitch : ℤ) :
    (rightUnits pianoroll num_pitches ticks_per_unit partition_note min_pitch).length =
      (chop_to_unit_multiple pianoroll ticks_per_unit).1 := by
  simp [rightUnits, reshapeUnits]

/-! Claim C5: the near-silence filter of `create_units`. -/

/-- C5: whenever `create_units` returns (chopped unit count `M ≠ 1`; at
`M = 1` the call raises from the squeeze/0-d-mask shape assertions), it
keeps a unit exactly when the mean of the (shuffled) input unit exceeds
`filter_threshold` strictly, applies the identical mask to both outputs,
and the outputs have equal length with every unit of shape
`ticks_per_unit × num_pitches`. -/
theorem create_units_filter_spec (pianoroll : List (List ℚ))
    (num_pitches ticks_per_unit : ℕ) (partition_note min_pitch : ℤ)
    (filter_threshold : ℚ) (bools : List Bool)
    (hrect : ∀ row ∈ pianoroll, row.length = num_pitches)
    (htpu : 0 < ticks_per_unit)
    (hM : (chop_to_unit_multiple pianoroll ticks_per_unit).1 ≠ 1) :
    ∃ iu cu,
      create_units pianoroll num_pitches ticks_per_unit partition_note min_pitch
          filter_threshold bools = some (iu, cu) ∧
      iu = (shuffledUnits bools pianoroll num_pitches ticks_per_unit partition_note
          min_pitch).1.filter (fun u => decide (filter_threshold < unitMean u)) ∧
      cu = maskFilter (keepMask bools pianoroll num_pitches ticks_per_unit partition_note
          min_pitch filter_threshold)
          (shuffledUnits bools pianoroll num_pitches ticks_per_unit partition_note min_pitch).2 ∧
      iu.length = cu.length ∧
      (∀ u ∈ iu, filter_threshold < unitMean u) ∧
      (∀ u ∈ iu, u.length = ticks_per_unit ∧ ∀ row ∈ u, row.length = num_pitches) ∧
      (∀ u ∈ cu, u.length = ticks_per_unit ∧ ∀ row ∈ u, row.length = num_pitches) := by
  have hguard : pianoroll.all (fun r => r.length == num_pitches) = true := by
    rw [List.all_eq_true]
    intro r hr
    exact beq_iff_eq.mpr (hrect r hr)
  have hfilter : maskFilter (keepMask bools pianoroll num_pitches ticks_per_unit
      partition_note min_pitch filter_threshold)
      (shuffledUnits bools pianoroll num_pitches ticks_per_unit partition_note min_pitch).1 =
      (shuffledUnits bools pianoroll num_pitches ticks_per_unit partition_note
        min_pitch).1.filter (fun u => decide (filter_threshold < unitMean u)) := by
    unfold keepMask
    exact maskFilter_map_self _ _
  have hsu1 : (shuffledUnits bools pianoroll num_pitches ticks_per_unit partition_note
      min_pitch).1.length = (chop_to_unit_multiple pianoroll ticks_per_unit).1 := by
    unfold shuffledUnits shuffle_left_right
    rw [List.length_map, List.length_range, leftUnits_length]
  have hsu2 : (shuffledUnits bools pianoroll num_pitches ticks_per_unit partition_note
      min_pitch).2.length = (chop_to_unit_multiple pianoroll ticks_per_unit).1 := by
    unfold shuffledUnits shuffle_left_right
    rw [List.length_map, List.length_range, rightUnits_length]
  have hLR : (leftUnits pianoroll num_pitches ticks_per_unit partition_note
      min_pitch).length =
      (rightUnits pianoroll num_pitches ticks_per_unit partition_note min_pitch).length := by
    rw [leftUnits_length, rightUnits_length]
  refine ⟨maskFilter (keepMask bools pianoroll num_pitches ticks_per_unit partition_note
      min_pitch filter_threshold)
      (shuffledUnits bools pianoroll num_pitches ticks_per_unit partition_note min_pitch).1,
    maskFilter (keepMask bools pianoroll num_pitches ticks_per_unit partition_note
      min_pitch filter_threshold)
      (shuffledUnits bools pianoroll num_pitches ticks_per_unit partition_note min_pitch).2,
    ?_, hfilter, rfl, ?_, ?_, ?_, ?_⟩
  · unfold create_units
    rw [if_pos hguard, if_neg hM]
  · exact maskFilter_length_eq _ _ _ (by rw [hsu1, hsu2])
  · intro u hu
    rw [hfilter] at hu
    have hp := List.of_mem_filter hu
    simpa using hp
  · intro u hu
    have hu2 := mem_of_mem_maskFilter _ _ _ hu
    unfold shuffledUnits at hu2
    rcases mem_shuffle_fst bools _ _ hLR u hu2 with h | h
    · exact leftUnits_dims pianoroll num_pitches ticks_per_unit partition_note min_pitch
        hrect u h
    · exact rightUnits_dims pianoroll num_pitches ticks_per_unit partition_note min_pitch
        hrect u h
  · intro u hu
    have hu2 := mem_of_mem_maskFilter _ _ _ hu
    unfold shuffledUnits at hu2
    rcases mem_shuffle_snd bools _ _ hLR u hu2 with h | h
    · exact leftUnits_dims pianoroll num_pitches ticks_per_unit partition_note min_pitch
        hrect u h
    · exact rightUnits_dims pianoroll num_pitches ticks_per_unit partition_note min_pitch
        hrect u h

/-! Claim C9: the left/right register split is a complementary zeroing,
so for every surviving unit the two outputs sum back to the original
unit of the truncated pianoroll. -/

theorem zipWith_add_replicate_right (l : List ℚ) (k : ℕ) (h : l.length ≤ k) :
    List.zipWith (fun a b => a + b) l (List.replicate k (0 : ℚ)) = l := by
  induction l generalizing k with
  | nil => simp
  | cons a l ih =>
    cases k with
    | zero => simp at h
    | succ k =>
      rw [List.replicate_succ, List.zipWith_cons_cons, add_zero,
        ih k (by simpa using h)]

theorem zipWith_add_replicate_left (l : List ℚ) (k : ℕ) (h : l.length ≤ k) :
    List.zipWith (fun a b => a + b) (List.replicate k (0 : ℚ)) l = l := by
  induction l generalizing k with
  | nil => simp
  | cons a l ih =>
    cases k with
    | zero => simp at h
    | succ k =>
      rw [List.replicate_succ, List.zipWith_cons_cons, zero_add,
        ih k (by simpa using h)]

theorem zeroFrom_add_zeroUpto (s : ℕ) (row : List ℚ) (hs : s ≤ row.length) :
    List.zipWith (fun a b => a + b) (zeroFrom s row) (zeroUpto s row) = row := by
  unfold zeroFrom zeroUpto
  rw [min_eq_left hs]
  rw [List.zipWith_append _ _ _ _ _
    (by rw [List.length_take, List.length_replicate]; omega)]
  rw [zipWith_add_replicate_right _ _ (by rw [List.length_take]; omega)]
  rw [zipWith_add_replicate_left _ _ (by rw [List.length_drop])]
  exact List.take_append_drop s row

theorem matAdd_comm (x y : List (List ℚ)) : matAdd x y = matAdd y x := by
  unfold matAdd
  apply List.zipWith_comm_of_comm
  intro r1 r2
  apply List.zipWith_comm_of_comm
  intro a b
  exact add_comm a b

theorem matAdd_zeroFrom_zeroUpto (s : ℕ) (u : List (List ℚ))
    (hs : ∀ row ∈ u, s ≤ row.length) :
    matAdd (u.map (zeroFrom s)) (u.map (zeroUpto s)) = u := by
  unfold matAdd
  rw [List.zipWith_map_left, List.zipWith_map_right, List.zipWith_same]
  have hid : ∀ r ∈ u,
      List.zipWith (fun a b => a + b) (zeroFrom s r) (zeroUpto s r) = id r := by
    intro r hr
    exact zeroFrom_add_zeroUpto s r (hs r hr)
  rw [List.map_congr_left hid, List.map_id]

theorem getD_map_of_lt {α β : Type} (F : α → β) (l : List α) (i : ℕ) (d : β) (d' : α)
    (h : i < l.length) : (l.map F).getD i d = F (l.getD i d') := by
  rw [List.getD_eq_getElem?_getD, List.getElem?_map, List.getElem?_eq_getElem h,
    List.getD_eq_getElem?_getD, List.getElem?_eq_getElem h]
  rfl

theorem reshapeUnits_map (f : List ℚ → List ℚ) (roll : List (List ℚ)) (M tpu : ℕ) :
    reshapeUnits (roll.map f) M tpu = (reshapeUnits roll M tpu).map (List.map f) := by
  unfold reshapeUnits
  rw [List.map_map]
  apply List.map_congr_left
  intro i _
  simp only [Function.comp_apply]
  rw [← List.map_drop, ← List.map_take]

theorem pyIdx_le (i : ℤ) (n : ℕ) : pyIdx i n ≤ n := by
  unfold pyIdx
  split_ifs
  · omega
  · exact min_le_right _ _

theorem shuffle_complement (bools : List Bool) (pianoroll : List (List ℚ))
    (num_pitches ticks_per_unit : ℕ) (partition_note min_pitch : ℤ)
    (hrect : ∀ row ∈ pianoroll, row.length = num_pitches)
    (hp1 : partition_note - min_pitch ≤ (num_pitches : ℤ)) :
    List.Forall₂ (fun (pr : List (List ℚ) × List (List ℚ)) u => matAdd pr.1 pr.2 = u)
      ((shuffledUnits bools pianoroll num_pitches ticks_per_unit partition_note
          min_pitch).1.zip
        (shuffledUnits bools pianoroll num_pitches ticks_per_unit partition_note
          min_pitch).2)
      (reshapeUnits (chop_to_unit_multiple pianoroll ticks_per_unit).2
        (chop_to_unit_multiple pianoroll ticks_per_unit).1 ticks_per_unit) := by
  have hs_le : pyIdx (partition_note - min_pitch) num_pitches ≤ num_pitches :=
    pyIdx_le _ _
  have hL : leftUnits pianoroll num_pitches ticks_per_unit partition_note min_pitch =
      (reshapeUnits (chop_to_unit_multiple pianoroll ticks_per_unit).2
        (chop_to_unit_multiple pianoroll ticks_per_unit).1 ticks_per_unit).map
        (List.map (zeroFrom (pyIdx (partition_note - min_pitch) num_pitches))) := by
    unfold leftUnits
    exact reshapeUnits_map _ _ _ _
  have hR : rightUnits pianoroll num_pitches ticks_per_unit partition_note min_pitch =
      (reshapeUnits (chop_to_unit_multiple pianoroll ticks_per_unit).2
        (chop_to_unit_multiple pianoroll ticks_per_unit).1 ticks_per_unit).map
        (List.map (zeroUpto (pyIdx (partition_note - min_pitch) num_pitches))) := by
    unfold rightUnits
    exact reshapeUnits_map _ _ _ _
  have hMlen : (reshapeUnits (chop_to_unit_multiple pianoroll ticks_per_unit).2
      (chop_to_unit_multiple pianoroll ticks_per_unit).1 ticks_per_unit).length =
      (chop_to_unit_multiple pianoroll ticks_per_unit).1 := by
    simp [reshapeUnits]
  unfold shuffledUnits shuffle_left_right
  rw [leftUnits_length, rightUnits_length, List.zip_map']
  have hunits : reshapeUnits (chop_to_unit_multiple pianoroll ticks_per_unit).2
      (chop_to_unit_multiple pianoroll ticks_per_unit).1 ticks_per_unit =
      (List.range (chop_to_unit_multiple pianoroll ticks_per_unit).1).map
        (fun i => ((chop_to_unit_multiple pianoroll ticks_per_unit).2.drop
          (i * ticks_per_unit)).take ticks_per_unit) := rfl
  rw [hunits, List.forall₂_map_right_iff, List.forall₂_map_left_iff, List.forall₂_same]
  intro i hi
  rw [List.mem_range] at hi
  have hunit_i : ∀ dflt, (reshapeUnits (chop_to_unit_multiple pianoroll ticks_per_unit).2
      (chop_to_unit_multiple pianoroll ticks_per_unit).1 ticks_per_unit).getD i dflt =
      ((chop_to_unit_multiple pianoroll ticks_per_unit).2.drop
        (i * ticks_per_unit)).take ticks_per_unit := by
    intro dflt
    unfold reshapeUnits
    rw [getD_range_map, if_pos hi]
  have hrows : ∀ row ∈ ((chop_to_unit_multiple pianoroll ticks_per_unit).2.drop
      (i * ticks_per_unit)).take ticks_per_unit,
      pyIdx (partition_note - min_pitch) num_pitches ≤ row.length := by
    intro row hrow
    have hmem : row ∈ pianoroll :=
      List.mem_of_mem_take (List.mem_of_mem_drop (List.mem_of_mem_take hrow))
    rw [hrect row hmem]
    exact hs_le
  have hcore : matAdd
      ((leftUnits pianoroll num_pitches ticks_per_unit partition_note min_pitch).getD i [])
      ((rightUnits pianoroll num_pitches ticks_per_unit partition_note min_pitch).getD i []) =
      ((chop_to_unit_multiple pianoroll ticks_per_unit).2.drop
        (i * ticks_per_unit)).take ticks_per_unit := by
    rw [hL, hR]
    rw [getD_map_of_lt _ _ _ _ [] (by rw [hMlen]; exact hi),
      getD_map_of_lt _ _ _ _ [] (by rw [hMlen]; exact hi)]
    rw [hunit_i]
    exact matAdd_zeroFrom_zeroUpto _ _ hrows
  by_cases hb : bools.getD i false
  · rw [if_pos hb, if_pos hb]
    simp only []
    rw [matAdd_comm]
    exact hcore
  · rw [if_neg hb, if_neg hb]
    exact hcore

/-- C9: whenever `create_units` returns (chopped unit count `M ≠ 1`),
for every realization of the random exchange and every unit that
survives the filter, the elementwise sum of the paired input and comp
units recovers the corresponding kept unit of the truncated pianoroll,
whenever `partition_note - min_pitch` lies in `[0, num_pitches]`. -/
theorem create_units_complement_spec (pianoroll : List (List ℚ))
    (num_pitches ticks_per_unit : ℕ) (partition_note min_pitch : ℤ)
    (filter_threshold : ℚ) (bools : List Bool)
    (hrect : ∀ row ∈ pianoroll, row.length = num_pitches)
    (htpu : 0 < ticks_per_unit)
    (hM : (chop_to_unit_multiple pianoroll ticks_per_unit).1 ≠ 1)
    (hp0 : 0 ≤ partition_note - min_pitch)
    (hp1 : partition_note - min_pitch ≤ (num_pitches : ℤ)) :
    ∃ iu cu,
      create_units pianoroll num_pitches ticks_per_unit partition_note min_pitch
          filter_threshold bools = some (iu, cu) ∧
      List.Forall₂ (fun (pr : List (List ℚ) × List (List ℚ)) u => matAdd pr.1 pr.2 = u)
        (iu.zip cu)
        (maskFilter (keepMask bools pianoroll num_pitches ticks_per_unit partition_note
            min_pitch filter_threshold)
          (reshapeUnits (chop_to_unit_multiple pianoroll ticks_per_unit).2
            (chop_to_unit_multiple pianoroll ticks_per_unit).1 ticks_per_unit)) := by
  have hguard : pianoroll.all (fun r => r.length == num_pitches) = true := by
    rw [List.all_eq_true]
    intro r hr
    exact beq_iff_eq.mpr (hrect r hr)
  have hsu1 : (shuffledUnits bools pianoroll num_pitches ticks_per_unit partition_note
      min_pitch).1.length = (chop_to_unit_multiple pianoroll ticks_per_unit).1 := by
    unfold shuffledUnits shuffle_left_right
    rw [List.length_map, List.length_range, leftUnits_length]
  have hsu2 : (shuffledUnits bools pianoroll num_pitches ticks_per_unit partition_note
      min_pitch).2.length = (chop_to_unit_multiple pianoroll ticks_per_unit).1 := by
    unfold shuffledUnits shuffle_left_right
    rw [List.length_map, List.length_range, rightUnits_length]
  refine ⟨maskFilter (keepMask bools pianoroll num_pitches ticks_per_unit partition_note
      min_pitch filter_threshold)
      (shuffledUnits bools pianoroll num_pitches ticks_per_unit partition_note min_pitch).1,
    maskFilter (keepMask bools pianoroll num_pitches ticks_per_unit partition_note
      min_pitch filter_threshold)
      (shuffledUnits bools pianoroll num_pitches ticks_per_unit partition_note min_pitch).2,
    ?_, ?_⟩
  · unfold create_units
    rw [if_pos hguard, if_neg hM]
  · rw [← maskFilter_zip _ _ _ (hsu1.trans hsu2.symm)]
    exact maskFilter_forall₂ _ _ _ _
      (shuffle_complement bools pianoroll num_pitches ticks_per_unit partition_note
        min_pitch hrect hp1)

/-- Witness for C5 at a concrete input with two chopped units. -/
theorem create_units_filter_spec_witness :
    (∀ row ∈ ([[(1 : ℚ)], [(1 : ℚ)]] : List (List ℚ)), row.length = 1) ∧ 0 < 1 ∧
    (chop_to_unit_multiple [[(1 : ℚ)], [(1 : ℚ)]] 1).1 ≠ 1 ∧
    ∃ iu cu,
      create_units [[(1 : ℚ)], [(1 : ℚ)]] 1 1 1 0 0 [false] = some (iu, cu) ∧
      iu = (shuffledUnits [false] [[(1 : ℚ)], [(1 : ℚ)]] 1 1 1 0).1.filter
          (fun u => decide ((0 : ℚ) < unitMean u)) ∧
      cu = maskFilter (keepMask [false] [[(1 : ℚ)], [(1 : ℚ)]] 1 1 1 0 0)
          (shuffledUnits [false] [[(1 : ℚ)], [(1 : ℚ)]] 1 1 1 0).2 ∧
      iu.length = cu.length ∧
      (∀ u ∈ iu, (0 : ℚ) < unitMean u) ∧
      (∀ u ∈ iu, u.length = 1 ∧ ∀ row ∈ u, row.length = 1) ∧
      (∀ u ∈ cu, u.length = 1 ∧ ∀ row ∈ u, row.length = 1) :=
  ⟨by decide, by decide, by decide,
   create_units_filter_spec [[(1 : ℚ)], [(1 : ℚ)]] 1 1 1 0 0 [false] (by decide)
     (by decide) (by decide)⟩

/-- Witness for C9 at a concrete input with two chopped units. -/
theorem create_units_complement_spec_witness :
    (∀ row ∈ ([[(1 : ℚ)], [(1 : ℚ)]] : List (List ℚ)), row.length = 1) ∧ 0 < 1 ∧
    (chop_to_unit_multiple [[(1 : ℚ)], [(1 : ℚ)]] 1).1 ≠ 1 ∧
    (0 : ℤ) ≤ (1 : ℤ) - 0 ∧ (1 : ℤ) - 0 ≤ ((1 : ℕ) : ℤ) ∧
    ∃ iu cu,
      create_units [[(1 : ℚ)], [(1 : ℚ)]] 1 1 1 0 0 [false] = some (iu, cu) ∧
      List.Forall₂ (fun (pr : List (List ℚ) × List (List ℚ)) u => matAdd pr.1 pr.2 = u)
        (iu.zip cu)
        (maskFilter (keepMask [false] [[(1 : ℚ)], [(1 : ℚ)]] 1 1 1 0 0)
          (reshapeUnits (chop_to_unit_multiple [[(1 : ℚ)], [(1 : ℚ)]] 1).2
            (chop_to_unit_multiple [[(1 : ℚ)], [(1 : ℚ)]] 1).1 1)) :=
  ⟨by decide, by decide, by decide, by decide, by decide,
   create_units_complement_spec [[(1 : ℚ)], [(1 : ℚ)]] 1 1 1 0 0 [false] (by decide)
     (by decide) (by decide) (by decide) (by decide)⟩

end PianorollUtils
